import Mathlib

/-!
Verification of a small transportation bookings/reporting program: a
transport data model (Service, Station, Leg, OD, Passenger) with itinerary
reconstruction, manifest loading and a cumulative sales history, plus a
standalone maximum-weight monotone grid-path algorithm.

The Python source is shallowly embedded: pure functions become Lean
functions, mutation of a Service becomes explicit state passing, Python
exceptions become an explicit exception type, and the two unbounded loops
(the itinerary walk and the backward path reconstruction) run on a fuel
argument that provably suffices on every input on which the Python loop
terminates.  Python list indexing is embedded with defaulted lookups
(`List.getD`); every verified statement stays within bounds, where the two
agree.
-/

namespace Cayzn

/-- Python built-in exceptions raised by the program.  The constructor
`nonTermination` is not a Python exception: it marks inputs on which the
itinerary walk's `while True` loop never finishes (possible only for
malformed leg sets). -/
inductive PyExc where
  | stopIteration
  | valueError
  | indexError
  | keyError
  | nonTermination
  deriving DecidableEq, Repr

/-- Python's exception hierarchy: `LookupError` is the base class of exactly
`IndexError` and `KeyError`; `StopIteration` and `ValueError` derive directly
from `Exception` and are not `LookupError`s. -/
def PyExc.isLookupError : PyExc → Bool
  | .indexError => true
  | .keyError => true
  | _ => false

/-- Decidable equality of `Except` results, needed to evaluate the embedded
program on concrete inputs. -/
instance {ε α : Type} [DecidableEq ε] [DecidableEq α] : DecidableEq (Except ε α) :=
  fun x y =>
    match x, y with
    | .ok a, .ok b =>
        if h : a = b then .isTrue (by rw [h])
        else .isFalse (by intro hc; cases hc; exact h rfl)
    | .error a, .error b =>
        if h : a = b then .isTrue (by rw [h])
        else .isFalse (by intro hc; cases hc; exact h rfl)
    | .ok _, .error _ => .isFalse (by intro hc; cases hc)
    | .error _, .ok _ => .isFalse (by intro hc; cases hc)

/-- A station has only a name.  Python compares `Station` objects by identity
(the class defines no custom equality), so the embedding adds an identity tag
`sid`; distinct Python objects are modelled with distinct tags. -/
structure Station where
  sid : Nat
  name : String
  deriving DecidableEq, Repr

/-- A passenger is a booking record.  Python compares `Passenger` objects by
identity, so the embedding adds the identity tag `pid`; the Python `float`
price is modelled as a rational number (exact for the values the program is
run on). -/
structure Passenger where
  pid : Nat
  origin : Station
  destination : Station
  sale_day_x : Int
  price : ℚ
  deriving DecidableEq, Repr

/-- A leg joins two consecutive stops.  The Python back reference `service`
is represented by passing the owning `Service` explicitly to the derived
property `Leg.passengers`. -/
structure Leg where
  origin : Station
  destination : Station
  deriving DecidableEq, Repr

/-- An origin-destination pair together with the passengers booked on it.
The Python back reference `service` is represented by passing the owning
`Service` explicitly to the derived property `OD.legs`. -/
structure OD where
  origin : Station
  destination : Station
  passengers : List Passenger
  deriving DecidableEq, Repr

/-- A service: its name plus its legs and ODs.  The field `departure_date`
and the derived `day_x` (which read the current date) play no role in any
verified statement and are omitted from the embedding. -/
structure Service where
  name : String
  legs : List Leg
  ods : List OD
  deriving DecidableEq, Repr

/-- The per-station endpoint count built by
`Service._calculate_station_occurrences_and_connections`: each leg
contributes one occurrence for its origin and one for its destination. -/
def stationOccurrences (legs : List Leg) (s : Station) : Nat :=
  (legs.map Leg.origin).count s + (legs.map Leg.destination).count s

/-- Insertion into a Python `dict` held as an association list in insertion
order: an existing key keeps its position and has its value overwritten, a
new key is appended at the end. -/
def dictInsert (k v : Station) (d : List (Station × Station)) :
    List (Station × Station) :=
  if d.any (fun p => decide (p.1 = k)) then
    d.map (fun p => if p.1 = k then (k, v) else p)
  else d ++ [(k, v)]

/-- The `station_connections` dict of
`Service._calculate_station_occurrences_and_connections`: for each leg in
order, `connections[origin] := destination`. -/
def stationConnections (legs : List Leg) : List (Station × Station) :=
  legs.foldl (fun d leg => dictInsert leg.origin leg.destination d) []

/-- The method `Service._find_departure_and_destination`: the first origin
with occurrence count 1 and the first destination with occurrence count 1,
in the dict's iteration (= insertion) order; an exhausted `next(...)` raises
`StopIteration`. -/
def _find_departure_and_destination (occ : Station → Nat)
    (conn : List (Station × Station)) : Except PyExc (Station × Station) :=
  match conn.find? (fun p => decide (occ p.1 = 1)),
        conn.find? (fun p => decide (occ p.2 = 1)) with
  | some dep, some dst => .ok (dep.1, dst.2)
  | _, _ => .error .stopIteration

/-- The `while True` walk of `Service._calculate_itinerary`: append the
current station, stop once the final destination has been appended, and
otherwise follow the connections dict (a missing key raises `KeyError`).
The argument `fuel` bounds the number of appends; the walk is run with fuel
`legs.length + 1`, which suffices whenever the Python loop terminates: a
terminating walk never repeats a station (the successor map is a function,
so a repeat would cycle forever) and therefore appends at most one station
more than there are dict entries.  Exhausted fuel marks a diverging loop. -/
def calcWalk (conn : List (Station × Station)) (dest : Station) :
    Nat → Station → Except PyExc (List Station)
  | 0, _ => .error .nonTermination
  | fuel + 1, current =>
      if current = dest then .ok [current]
      else
        match conn.find? (fun p => decide (p.1 = current)) with
        | none => .error .keyError
        | some p => (calcWalk conn dest fuel p.2).map (current :: ·)

/-- The method `Service._calculate_itinerary`, as a function of the leg
list. -/
def _calculate_itinerary (legs : List Leg) : Except PyExc (List Station) := do
  let pair ← _find_departure_and_destination (stationOccurrences legs)
      (stationConnections legs)
  calcWalk (stationConnections legs) pair.2 (legs.length + 1) pair.1

/-- The property `Service.itinerary` (recomputed on every access). -/
def Service.itinerary (svc : Service) : Except PyExc (List Station) :=
  _calculate_itinerary svc.legs

/-- The method `Service.load_legs`: appends one leg per consecutive pair of
the given itinerary (`zip(itinerary, itinerary[1:])`). -/
def Service.load_legs (svc : Service) (itin : List Station) : Service :=
  { svc with legs := svc.legs ++ (itin.zip itin.tail).map (fun p => Leg.mk p.1 p.2) }

/-- The library call `itertools.combinations(l, 2)`: all pairs
`(l[i], l[j])` with `i < j`, in lexicographic index order. -/
def combinations2 : List Station → List (Station × Station)
  | [] => []
  | s :: rest => rest.map (fun t => (s, t)) ++ combinations2 rest

/-- The method `Service.load_ods`: appends one OD (with an empty passenger
list) per combination of two itinerary stations. -/
def Service.load_ods (svc : Service) (itin : List Station) : Service :=
  { svc with ods := svc.ods ++ (combinations2 itin).map (fun p => OD.mk p.1 p.2 []) }

/-- The method `Service.load_itinerary`: load the legs, then the ODs. -/
def Service.load_itinerary (svc : Service) (itin : List Station) : Service :=
  (svc.load_legs itin).load_ods itin

/-- One iteration of `Service.load_passenger_manifest`: find the first OD
whose (origin, destination) pair equals the passenger's and append the
passenger to its passenger list; `none` models the `StopIteration` raised by
`next` when no OD matches. -/
def appendPassenger : List OD → Passenger → Option (List OD)
  | [], _ => none
  | od :: rest, p =>
      if od.origin = p.origin ∧ od.destination = p.destination then
        some ({ od with passengers := od.passengers ++ [p] } :: rest)
      else
        (appendPassenger rest p).map (od :: ·)

/-- The method `Service.load_passenger_manifest`, with the Python mutation of
the ODs made explicit: the result is the Service state at the moment the
call returns (on success) or the exception escapes (on failure), paired with
the outcome.  An exception aborts the loop immediately, leaving the appends
already performed in place. -/
def Service.load_passenger_manifest :
    Service → List Passenger → Service × Except PyExc Unit
  | svc, [] => (svc, .ok ())
  | svc, p :: rest =>
      match appendPassenger svc.ods p with
      | none => (svc, .error .stopIteration)
      | some ods' => Service.load_passenger_manifest { svc with ods := ods' } rest

/-- Python `list.index`: the first index of an element, raising `ValueError`
when the element is absent. -/
def listIndex (l : List Station) (s : Station) : Except PyExc Nat :=
  match l.findIdx? (fun x => decide (x = s)) with
  | some i => .ok i
  | none => .error .valueError

/-- The property `OD.legs`: the slice
`service.legs[origin_index:destination_index]` of the Service's legs, where
the two indices are looked up in the itinerary. -/
def OD.legs (svc : Service) (od : OD) : Except PyExc (List Leg) := do
  let itin ← svc.itinerary
  let origin_index ← listIndex itin od.origin
  let destination_index ← listIndex itin od.destination
  pure ((svc.legs.drop origin_index).take (destination_index - origin_index))

/-- The comprehension inside `Leg.passengers`: the passengers of every OD of
the service whose `legs` view contains this leg, concatenated in ODs order;
an exception raised by an `od.legs` access propagates. -/
def collectLegPassengers (svc : Service) (leg : Leg) :
    List OD → Except PyExc (List Passenger)
  | [] => .ok []
  | od :: rest => do
      let ls ← OD.legs svc od
      let tail ← collectLegPassengers svc leg rest
      if leg ∈ ls then pure (od.passengers ++ tail) else pure tail

/-- The property `Leg.passengers`: the de-duplicated passengers crossing
this leg.  The Python `set` iterates in unspecified order; the embedding
fixes one duplicate-free enumeration of the set (`List.dedup`). -/
def Leg.passengers (svc : Service) (leg : Leg) : Except PyExc (List Passenger) :=
  (collectLegPassengers svc leg svc.ods).map List.dedup

/-- The in-place pass of `OD.history` that rewrites row `i` to
`row i + row (i-1)` in the bookings and revenue columns: each row is
increased by the accumulated totals of the rows before it. -/
def cumulate : Nat × ℚ → List (Int × Nat × ℚ) → List (Int × Nat × ℚ)
  | _, [] => []
  | acc, (d, b, r) :: rest =>
      (d, acc.1 + b, acc.2 + r) :: cumulate (acc.1 + b, acc.2 + r) rest

/-- The sorted key set of the defaultdict built by `OD.history`: the
distinct sale days of the passengers, in ascending order.  Python's `sorted`
on the `[day, bookings, revenue]` rows orders them by day, the days being
distinct. -/
def sortedDays (ps : List Passenger) : List Int :=
  List.insertionSort (· ≤ ·) (ps.map Passenger.sale_day_x).dedup

/-- The method `OD.history`: group this OD's passengers by sale day, sort
the per-day rows ascending, then replace each row by the running totals.
The defaultdict aggregation is embedded by its result: each distinct sale
day mapped to that day's booking count and revenue. -/
def OD.history (od : OD) : List (Int × Nat × ℚ) :=
  let ps := od.passengers
  cumulate (0, 0) ((sortedDays ps).map (fun d =>
    (d, (ps.filter (fun p => decide (p.sale_day_x = d))).length,
        ((ps.filter (fun p => decide (p.sale_day_x = d))).map Passenger.price).sum)))

/-- The dp table of `max_path_finder`, as a function of the cell: the fill
loop writes `grid[0][0]` at the origin and
`grid[r][c] + max(dp[r-1][c] if r > 0, dp[r][c-1] if c > 0)` everywhere
else, row by row; `dpFirstRow` and `dpNextRow` compute exactly this
row-major recurrence. -/
def dpFirstRow (g : List (List Int)) : Nat → Int
  | 0 => (g.getD 0 []).getD 0 0
  | c + 1 => (g.getD 0 []).getD (c + 1) 0 + dpFirstRow g c

/-- Row `r` of the dp table, given the previous row (see `dpFirstRow`). -/
def dpNextRow (g : List (List Int)) (r : Nat) (prev : Nat → Int) : Nat → Int
  | 0 => (g.getD r []).getD 0 0 + prev 0
  | c + 1 => (g.getD r []).getD (c + 1) 0 + max (prev (c + 1)) (dpNextRow g r prev c)

/-- Value of the dp table of `max_path_finder` at cell `(r, c)` (see
`dpFirstRow`). -/
def dpVal (g : List (List Int)) : Nat → Nat → Int
  | 0 => dpFirstRow g
  | r + 1 => dpNextRow g (r + 1) (dpVal g r)

/-- The backward `while` loop of `path_finder`.  One iteration appends
`(row, col)` and then moves up when a row above exists and either `col == 0`
or the up-neighbour's dp value is at least the left-neighbour's, moves left
when a column remains, and otherwise (at `(0, 0)`, where the Python loop
drives `col` to `-1`) stops.  The argument `fuel` bounds the iterations;
`row + col + 1` is exactly the number the Python loop performs. -/
def pfWalkAux (dp : List (List Int)) : Nat → Nat → Nat → List (Nat × Nat)
  | 0, _, _ => []
  | fuel + 1, row, col =>
      (row, col) ::
        (if 0 < row ∧ (col = 0 ∨
            (dp.getD (row - 1) []).getD col 0 ≥ (dp.getD row []).getD (col - 1) 0) then
          pfWalkAux dp fuel (row - 1) col
        else if 0 < col then
          pfWalkAux dp fuel row (col - 1)
        else [])

/-- The function `path_finder`: run the backward walk from the bottom-right
corner of the dp table and reverse the collected coordinates. -/
def path_finder (dp : List (List Int)) : List (Nat × Nat) :=
  let n := dp.length
  let m := (dp.getD 0 []).length
  (pfWalkAux dp ((n - 1) + (m - 1) + 1) (n - 1) (m - 1)).reverse

/-- The function `max_path_finder`: build the dp table, return its
bottom-right value together with the reconstructed path. -/
def max_path_finder (grid : List (List Int)) : Int × List (Nat × Nat) :=
  let n := grid.length
  let m := (grid.getD 0 []).length
  let dp := (List.range n).map (fun r => (List.range m).map (fun c => dpVal grid r c))
  ((dp.getD (n - 1) []).getD (m - 1) 0, path_finder dp)

/-- The example stations of the script. -/
def ply : Station := ⟨0, "ply"⟩

/-- Lyon Part-Dieu. -/
def lpd : Station := ⟨1, "lpd"⟩

/-- Marseille Saint-Charles. -/
def msc : Station := ⟨2, "msc"⟩

/-- The service built by the script: itinerary ply, lpd, msc loaded into a
fresh service. -/
def scenarioService : Service :=
  Service.load_itinerary ⟨"7601", [], []⟩ [ply, lpd, msc]

/-- The passenger manifest loaded by the script (two of the five passengers
carry equal field values but are distinct objects, hence distinct tags). -/
def scenarioManifest : List Passenger :=
  [⟨0, ply, lpd, -30, 20⟩, ⟨1, ply, lpd, -25, 30⟩, ⟨2, ply, lpd, -20, 40⟩,
   ⟨3, ply, lpd, -20, 40⟩, ⟨4, ply, msc, -10, 50⟩]

/-- The service state after the script's manifest load. -/
def scenarioLoaded : Service :=
  (scenarioService.load_passenger_manifest scenarioManifest).1

/-- Lookup of the OD with a given (origin, destination) pair, as the script
does with `next(od for od in service.ods if ...)`. -/
def odOf (svc : Service) (o d : Station) : Option OD :=
  svc.ods.find? (fun od => decide (od.origin = o ∧ od.destination = d))

/-- The backward walk of `path_finder` with the fuel it is actually run
with: starting at `(row, col)`, the loop performs exactly `row + col + 1`
iterations. -/
def pfWalk (dp : List (List Int)) (row col : Nat) : List (Nat × Nat) :=
  pfWalkAux dp (row + col + 1) row col

/-- The matching test of `load_passenger_manifest`: this OD's (origin,
destination) pair equals the passenger's. -/
def matchesOD (p : Passenger) (od : OD) : Prop :=
  od.origin = p.origin ∧ od.destination = p.destination

instance (p : Passenger) (od : OD) : Decidable (matchesOD p od) :=
  inferInstanceAs (Decidable (_ ∧ _))

/-- The (origin, destination) pair of an OD. -/
def odPair (od : OD) : Station × Station := (od.origin, od.destination)

/-- Pointwise relation between an OD list after and before a manifest load
of `ps`: the pair is unchanged and the passenger list is extended, in
manifest order, by exactly the manifest entries matching this OD. -/
def odExtended (ps : List Passenger) (od' od : OD) : Prop :=
  od'.origin = od.origin ∧ od'.destination = od.destination ∧
    od'.passengers = od.passengers ++ ps.filter (fun q => decide (matchesOD q od))

/-- The legs created by `load_legs` for an itinerary: one leg per
consecutive pair of stations. -/
def chainLegs (ss : List Station) : List Leg :=
  (ss.zip ss.tail).map (fun p => Leg.mk p.1 p.2)

/-- Entry of the matrix at a cell, as `max_path_finder` reads it. -/
def gridVal (g : List (List Int)) (r c : Nat) : Int :=
  (g.getD r []).getD c 0

/-- One forward step of a monotone path through the grid: move one cell
down or one cell right. -/
def stepRD (a b : Nat × Nat) : Prop :=
  (b.1 = a.1 + 1 ∧ b.2 = a.2) ∨ (b.1 = a.1 ∧ b.2 = a.2 + 1)

instance (a b : Nat × Nat) : Decidable (stepRD a b) :=
  inferInstanceAs (Decidable (_ ∨ _))

/-- A monotone path from `(0, 0)` to `(r, c)` (the notion the PathFinder
specification quantifies over): consecutive coordinates are right or down
steps, the first coordinate is `(0, 0)`, the last is `(r, c)`. -/
def IsMonoPathTo (r c : Nat) (p : List (Nat × Nat)) : Prop :=
  p.Chain' stepRD ∧ p.head? = some (0, 0) ∧ p.getLast? = some (r, c)

/-- Sum of the matrix values at the coordinates of a path. -/
def pathSum (g : List (List Int)) (p : List (Nat × Nat)) : Int :=
  (p.map (fun rc => gridVal g rc.1 rc.2)).sum

theorem pfWalkAux_congr (dp : List (List Int)) :
    ∀ (fuel fuel' row col : Nat), row + col < fuel → row + col < fuel' →
      pfWalkAux dp fuel row col = pfWalkAux dp fuel' row col := by
  intro fuel
  induction fuel with
  | zero => intro fuel' row col h; omega
  | succ f ih =>
      intro fuel' row col h h'
      match fuel', h' with
      | f' + 1, h' =>
        show pfWalkAux dp (f + 1) row col = pfWalkAux dp (f' + 1) row col
        unfold pfWalkAux
        by_cases hup : 0 < row ∧ (col = 0 ∨
            (dp.getD (row - 1) []).getD col 0 ≥ (dp.getD row []).getD (col - 1) 0)
        · rw [if_pos hup, if_pos hup, ih f' (row - 1) col (by omega) (by omega)]
        · rw [if_neg hup, if_neg hup]
          by_cases hc : 0 < col
          · rw [if_pos hc, if_pos hc, ih f' row (col - 1) (by omega) (by omega)]
          · rw [if_neg hc, if_neg hc]

/-- Unfolding equation for one iteration of the backward walk. -/
theorem pfWalk_eq (dp : List (List Int)) (row col : Nat) :
    pfWalk dp row col =
      (row, col) ::
        (if 0 < row ∧ (col = 0 ∨
            (dp.getD (row - 1) []).getD col 0 ≥ (dp.getD row []).getD (col - 1) 0) then
          pfWalk dp (row - 1) col
        else if 0 < col then
          pfWalk dp row (col - 1)
        else []) := by
  show pfWalkAux dp (row + col + 1) row col = _
  unfold pfWalkAux
  by_cases hup : 0 < row ∧ (col = 0 ∨
      (dp.getD (row - 1) []).getD col 0 ≥ (dp.getD row []).getD (col - 1) 0)
  · rw [if_pos hup, if_pos hup,
      pfWalkAux_congr dp (row + col) ((row - 1) + col + 1) (row - 1) col
        (by omega) (by omega)]
    rfl
  · rw [if_neg hup, if_neg hup]
    by_cases hc : 0 < col
    · rw [if_pos hc, if_pos hc,
        pfWalkAux_congr dp (row + col) (row + (col - 1) + 1) row (col - 1)
          (by omega) (by omega)]
      rfl
    · rw [if_neg hc, if_neg hc]

example : max_path_finder [[1, 1, 8], [3, 2, 1]] =
    (11, [(0, 0), (0, 1), (0, 2), (1, 2)]) := by decide

example : max_path_finder [[1, 2, 3], [3, 4, 5]] =
    (13, [(0, 0), (1, 0), (1, 1), (1, 2)]) := by decide

example : max_path_finder [[1, 0, 5], [1, 0, 0], [1, 10, 1], [1, 0, 1], [1, 0, 0]] =
    (15, [(0, 0), (1, 0), (2, 0), (2, 1), (2, 2), (3, 2), (4, 2)]) := by decide

example : scenarioService.itinerary = .ok [ply, lpd, msc] := by decide

example : odOf scenarioLoaded ply lpd =
    some ⟨ply, lpd, [⟨0, ply, lpd, -30, 20⟩, ⟨1, ply, lpd, -25, 30⟩,
      ⟨2, ply, lpd, -20, 40⟩, ⟨3, ply, lpd, -20, 40⟩]⟩ := by decide

example : (odOf scenarioLoaded ply lpd).map OD.history =
    some [(-30, 1, 20), (-25, 2, 50), (-20, 4, 130)] := by
  norm_num [OD.history, cumulate, odOf, scenarioLoaded, scenarioService,
    scenarioManifest, Service.load_passenger_manifest, Service.load_itinerary,
    Service.load_legs, Service.load_ods, appendPassenger, combinations2,
    ply, lpd, msc]

example : (Leg.passengers scenarioLoaded ⟨ply, lpd⟩).map List.length = .ok 5 := by
  decide

example : (Leg.passengers scenarioLoaded ⟨lpd, msc⟩).map List.length = .ok 1 := by
  decide

/-- C3: during backward path reconstruction, whenever both an up-neighbour
and a left-neighbour exist and their dp values are equal, the step taken is
up (row decremented), never left; moreover
`max_path_finder [[1,1,8],[3,2,1]] = (11, [(0,0),(0,1),(0,2),(1,2)])` and
`max_path_finder [[1,2,3],[3,4,5]] = (13, [(0,0),(1,0),(1,1),(1,2)])`. -/
theorem path_reconstruction_tie_break :
    (∀ (dp : List (List Int)) (row col : Nat), 0 < row → 0 < col →
      (dp.getD (row - 1) []).getD col 0 = (dp.getD row []).getD (col - 1) 0 →
      pfWalk dp row col = (row, col) :: pfWalk dp (row - 1) col) ∧
    max_path_finder [[1, 1, 8], [3, 2, 1]] = (11, [(0, 0), (0, 1), (0, 2), (1, 2)]) ∧
    max_path_finder [[1, 2, 3], [3, 4, 5]] = (13, [(0, 0), (1, 0), (1, 1), (1, 2)]) := by
  refine ⟨?_, by decide, by decide⟩
  intro dp row col hr hc he
  rw [pfWalk_eq, if_pos ⟨hr, Or.inr (le_of_eq he.symm)⟩]

/-- Witness for C3: a concrete tie (both dp neighbours of cell `(1, 1)`
equal 2) where the walk steps up. -/
theorem path_reconstruction_tie_break_witness :
    pfWalk [[1, 2], [2, 4]] 1 1 = (1, 1) :: pfWalk [[1, 2], [2, 4]] 0 1 :=
  path_reconstruction_tie_break.1 [[1, 2], [2, 4]] 1 1 (by decide) (by decide)
    (by decide)

theorem appendPassenger_none_iff (p : Passenger) :
    ∀ ods : List OD, appendPassenger ods p = none ↔ ∀ od ∈ ods, ¬ matchesOD p od := by
  intro ods
  induction ods with
  | nil => simp [appendPassenger]
  | cons od rest ih =>
      simp only [appendPassenger]
      by_cases h : od.origin = p.origin ∧ od.destination = p.destination
      · rw [if_pos h]
        constructor
        · intro hc; exact absurd hc (Option.some_ne_none _)
        · intro hall; exact absurd h (hall od (List.mem_cons_self od rest))
      · rw [if_neg h, Option.map_eq_none', ih]
        constructor
        · intro hall o ho
          rcases List.mem_cons.mp ho with rfl | homem
          · exact h
          · exact hall o homem
        · intro hall o ho; exact hall o (List.mem_cons_of_mem od ho)

theorem appendPassenger_some (p : Passenger) :
    ∀ (ods ods' : List OD), appendPassenger ods p = some ods' →
      ∃ pre od post, ods = pre ++ od :: post ∧
        ods' = pre ++ { od with passengers := od.passengers ++ [p] } :: post ∧
        matchesOD p od ∧ (∀ o ∈ pre, ¬ matchesOD p o) := by
  intro ods
  induction ods with
  | nil => intro ods' h; exact absurd h (by simp [appendPassenger])
  | cons od rest ih =>
      intro ods' h
      simp only [appendPassenger] at h
      by_cases hm : od.origin = p.origin ∧ od.destination = p.destination
      · rw [if_pos hm] at h
        exact ⟨[], od, rest, rfl, (Option.some.inj h).symm, hm, by simp⟩
      · rw [if_neg hm] at h
        rcases Option.map_eq_some'.mp h with ⟨rest', hres, hcons⟩
        rcases ih rest' hres with ⟨pre, odm, post, h1, h2, h3, h4⟩
        refine ⟨od :: pre, odm, post, by rw [h1, List.cons_append], ?_, h3, ?_⟩
        · rw [← hcons, h2]; rfl
        · intro o ho
          rcases List.mem_cons.mp ho with rfl | homem
          · exact hm
          · exact h4 o homem

theorem appendPassenger_pairs (p : Passenger) (ods ods' : List OD)
    (h : appendPassenger ods p = some ods') : ods'.map odPair = ods.map odPair := by
  rcases appendPassenger_some p ods ods' h with ⟨pre, od, post, rfl, rfl, _, _⟩
  simp [odPair]

theorem appendPassenger_isSome (p : Passenger) (ods : List OD)
    (h : ∃ od ∈ ods, matchesOD p od) : ∃ ods', appendPassenger ods p = some ods' := by
  cases he : appendPassenger ods p with
  | some ods' => exact ⟨ods', rfl⟩
  | none =>
      rcases h with ⟨od, hmem, hmt⟩
      exact absurd hmt ((appendPassenger_none_iff p ods).mp he od hmem)

theorem matches_iff_pair (p : Passenger) (od : OD) :
    matchesOD p od ↔ odPair od = (p.origin, p.destination) := by
  simp [matchesOD, odPair, Prod.ext_iff]

theorem exists_match_congr (p : Passenger) (ods₁ ods₂ : List OD)
    (h : ods₁.map odPair = ods₂.map odPair) :
    (∃ od ∈ ods₁, matchesOD p od) ↔ (∃ od ∈ ods₂, matchesOD p od) := by
  have key : ∀ (l₁ l₂ : List OD), l₁.map odPair = l₂.map odPair →
      (∃ od ∈ l₁, matchesOD p od) → ∃ od ∈ l₂, matchesOD p od := by
    intro l₁ l₂ hmap hex
    rcases hex with ⟨od, hmem, hmt⟩
    have hin : odPair od ∈ l₂.map odPair := hmap ▸ List.mem_map_of_mem odPair hmem
    rcases List.mem_map.mp hin with ⟨od₂, hmem₂, hp₂⟩
    exact ⟨od₂, hmem₂, (matches_iff_pair p od₂).mpr
      (hp₂.trans ((matches_iff_pair p od).mp hmt))⟩
  exact ⟨key _ _ h, key _ _ h.symm⟩

theorem lpm_cons (svc : Service) (p : Passenger) (rest : List Passenger) :
    Service.load_passenger_manifest svc (p :: rest) =
      match appendPassenger svc.ods p with
      | none => (svc, .error .stopIteration)
      | some ods' => Service.load_passenger_manifest { svc with ods := ods' } rest := rfl

theorem lpm_error_of_unmatched :
    ∀ (ps : List Passenger) (svc : Service),
      (∃ p ∈ ps, ∀ od ∈ svc.ods, ¬ matchesOD p od) →
      (svc.load_passenger_manifest ps).2 = .error .stopIteration := by
  intro ps
  induction ps with
  | nil => intro svc h; simp at h
  | cons p₀ rest ih =>
      intro svc h
      rcases h with ⟨p, hp, hpm⟩
      rw [lpm_cons]
      cases he : appendPassenger svc.ods p₀ with
      | none => rfl
      | some ods₂ =>
          rcases List.mem_cons.mp hp with rfl | hprest
          · rcases appendPassenger_some p svc.ods ods₂ he with ⟨pre, od, post, h1, _, h3, _⟩
            exact absurd h3 (hpm od (by rw [h1]; simp))
          · have hpairs := appendPassenger_pairs p₀ svc.ods ods₂ he
            have hpm₂ : ∀ od ∈ ods₂, ¬ matchesOD p od := by
              intro od hmem hmt
              rcases (exists_match_congr p ods₂ svc.ods hpairs).mp ⟨od, hmem, hmt⟩ with
                ⟨od', hmem', hmt'⟩
              exact hpm od' hmem' hmt'
            exact ih { svc with ods := ods₂ } ⟨p, hprest, hpm₂⟩

theorem forall₂_trans_of {α β γ : Type} {R : α → β → Prop} {S : β → γ → Prop}
    {T : α → γ → Prop} (h : ∀ a b c, R a b → S b c → T a c) :
    ∀ {l₁ : List α} {l₂ : List β} {l₃ : List γ},
      List.Forall₂ R l₁ l₂ → List.Forall₂ S l₂ l₃ → List.Forall₂ T l₁ l₃ := by
  intro l₁ l₂ l₃ h12
  induction h12 generalizing l₃ with
  | nil => intro h23; cases h23; exact List.Forall₂.nil
  | cons hr _ ih =>
      intro h23
      cases h23 with
      | cons hs hss => exact .cons (h _ _ _ hr hs) (ih hss)

theorem appendPassenger_step (p : Passenger) (ods ods' : List OD)
    (hnd : (ods.map odPair).Nodup) (h : appendPassenger ods p = some ods') :
    List.Forall₂ (fun od₂ od => od₂.origin = od.origin ∧
      od₂.destination = od.destination ∧
      od₂.passengers = od.passengers ++ if matchesOD p od then [p] else []) ods' ods := by
  rcases appendPassenger_some p ods ods' h with ⟨pre, od, post, rfl, rfl, hm, hpre⟩
  have hpost : ∀ o ∈ post, ¬ matchesOD p o := by
    intro o ho hmt
    have hpair : odPair o = odPair od := by
      rw [matches_iff_pair] at hm hmt
      rw [hmt, hm]
    rw [List.map_append] at hnd
    have h1 : ((od :: post).map odPair).Nodup := hnd.of_append_right
    have h2 : odPair od ∉ post.map odPair := (List.nodup_cons.mp (by simpa using h1)).1
    exact h2 (hpair ▸ List.mem_map_of_mem odPair ho)
  refine List.rel_append ?_ (List.Forall₂.cons ⟨rfl, rfl, by rw [if_pos hm]⟩ ?_)
  · rw [List.forall₂_same]
    intro o ho
    exact ⟨rfl, rfl, by rw [if_neg (hpre o ho)]; simp⟩
  · rw [List.forall₂_same]
    intro o ho
    exact ⟨rfl, rfl, by rw [if_neg (hpost o ho)]; simp⟩

theorem odExtended_compose (p : Passenger) (rest : List Passenger) (a b c : OD)
    (h1 : odExtended rest a b)
    (h2 : b.origin = c.origin ∧ b.destination = c.destination ∧
      b.passengers = c.passengers ++ if matchesOD p c then [p] else []) :
    odExtended (p :: rest) a c := by
  obtain ⟨e1, e2, e3⟩ := h1
  obtain ⟨f1, f2, f3⟩ := h2
  refine ⟨e1.trans f1, e2.trans f2, ?_⟩
  have hfc : rest.filter (fun q => decide (matchesOD q b)) =
      rest.filter (fun q => decide (matchesOD q c)) := by
    apply List.filter_congr
    intro q _
    have : matchesOD q b ↔ matchesOD q c := by
      unfold matchesOD
      rw [f1, f2]
    exact decide_eq_decide.mpr this
  rw [e3, f3, hfc]
  by_cases hmc : matchesOD p c
  · simp [List.filter_cons, hmc, List.append_assoc]
  · simp [List.filter_cons, hmc]

theorem lpm_ok_prefix :
    ∀ (ps₁ : List Passenger) (svc : Service),
      (svc.ods.map odPair).Nodup →
      (∀ p ∈ ps₁, ∃ od ∈ svc.ods, matchesOD p od) →
      ∃ svc₁ : Service,
        (∀ ps₂, svc.load_passenger_manifest (ps₁ ++ ps₂) =
          svc₁.load_passenger_manifest ps₂) ∧
        svc₁.name = svc.name ∧ svc₁.legs = svc.legs ∧
        svc₁.ods.map odPair = svc.ods.map odPair ∧
        List.Forall₂ (odExtended ps₁) svc₁.ods svc.ods := by
  intro ps₁
  induction ps₁ with
  | nil =>
      intro svc _ _
      refine ⟨svc, fun ps₂ => rfl, rfl, rfl, rfl, ?_⟩
      rw [List.forall₂_same]
      intro od _
      exact ⟨rfl, rfl, by simp [odExtended]⟩
  | cons p rest ih =>
      intro svc hnd hall
      have hp := hall p (List.mem_cons_self p rest)
      rcases appendPassenger_isSome p svc.ods hp with ⟨ods₂, he⟩
      have hpairs := appendPassenger_pairs p svc.ods ods₂ he
      have hnd₂ : (ods₂.map odPair).Nodup := by rw [hpairs]; exact hnd
      have hall₂ : ∀ q ∈ rest, ∃ od ∈ ods₂, matchesOD q od := by
        intro q hq
        exact (exists_match_congr q svc.ods ods₂ hpairs.symm).mp
          (hall q (List.mem_cons_of_mem p hq))
      rcases ih { svc with ods := ods₂ } hnd₂ hall₂ with ⟨svc₁, hrun, hname, hlegs, hpair₁, hf⟩
      refine ⟨svc₁, ?_, hname, hlegs, hpair₁.trans hpairs, ?_⟩
      · intro ps₂
        have hcons : (p :: rest) ++ ps₂ = p :: (rest ++ ps₂) := rfl
        rw [hcons, lpm_cons, he]
        exact hrun ps₂
      · exact forall₂_trans_of (odExtended_compose p rest) hf
          (appendPassenger_step p svc.ods ods₂ hnd he)

/-- C5 (amended): for every Service and every passenger list containing some
passenger whose (origin, destination) pair matches no OD of the service,
`load_passenger_manifest` fails by raising `StopIteration` (the exception of
an exhausted `next(...)` — not a `LookupError`), propagated immediately to
the caller with no skip-and-continue of the remaining passengers. -/
theorem load_passenger_manifest_unmatched_raises (svc : Service) (ps : List Passenger)
    (h : ∃ p ∈ ps, ∀ od ∈ svc.ods, ¬ matchesOD p od) :
    (svc.load_passenger_manifest ps).2 = .error .stopIteration :=
  lpm_error_of_unmatched ps svc h

/-- Witness for C5: loading a manifest holding one passenger with the
reversed pair (lpd, ply) on the example service raises `StopIteration`. -/
theorem load_passenger_manifest_unmatched_raises_witness :
    (scenarioService.load_passenger_manifest [⟨9, lpd, ply, -5, 10⟩]).2 =
      .error .stopIteration :=
  load_passenger_manifest_unmatched_raises scenarioService [⟨9, lpd, ply, -5, 10⟩]
    (by decide)

/-- Counterexample to C5 as stated: on a concrete service and a manifest
with an unmatched passenger, the failure is `StopIteration`, which is not a
`LookupError` in Python's exception hierarchy (`LookupError` covers only
`IndexError` and `KeyError`). -/
theorem load_passenger_manifest_raises_no_lookupError :
    (scenarioService.load_passenger_manifest [⟨9, lpd, ply, -5, 10⟩]).2 =
      .error .stopIteration ∧ PyExc.stopIteration.isLookupError = false :=
  ⟨by decide, rfl⟩

/-- C8: for every Service with pairwise-distinct OD pairs and every
passenger list in which each passenger's (origin, destination) pair matches
some OD of the Service, `load_passenger_manifest` succeeds and appends each
passenger to exactly the OD whose origin and destination equal the
passenger's: every OD keeps its pair, and its passenger list is extended by
exactly the matching manifest entries, in manifest order. -/
theorem load_passenger_manifest_allocates (svc : Service) (ps : List Passenger)
    (hnd : (svc.ods.map odPair).Nodup)
    (hall : ∀ p ∈ ps, ∃ od ∈ svc.ods, matchesOD p od) :
    ∃ svc', svc.load_passenger_manifest ps = (svc', .ok ()) ∧
      List.Forall₂ (odExtended ps) svc'.ods svc.ods := by
  rcases lpm_ok_prefix ps svc hnd hall with ⟨svc₁, hrun, _, _, _, hf⟩
  have h0 := hrun []
  rw [List.append_nil] at h0
  exact ⟨svc₁, h0.trans rfl, hf⟩

/-- Witness for C8: the script's scenario manifest load succeeds and
allocates as specified. -/
theorem load_passenger_manifest_allocates_witness :
    ∃ svc', scenarioService.load_passenger_manifest scenarioManifest =
        (svc', .ok ()) ∧
      List.Forall₂ (odExtended scenarioManifest) svc'.ods scenarioService.ods :=
  load_passenger_manifest_allocates scenarioService scenarioManifest (by decide)
    (by decide)

/-- C10: `load_passenger_manifest` is not atomic: when the first passengers
of the manifest each match an OD but the next one matches none, the call
raises on that passenger with the earlier passengers already appended to
their matching ODs, and those appends persist in the resulting service
state (no rollback). -/
theorem load_passenger_manifest_partial (svc : Service) (pre : List Passenger)
    (bad : Passenger) (post : List Passenger)
    (hnd : (svc.ods.map odPair).Nodup)
    (hpre : ∀ p ∈ pre, ∃ od ∈ svc.ods, matchesOD p od)
    (hbad : ∀ od ∈ svc.ods, ¬ matchesOD bad od) :
    ∃ svc', svc.load_passenger_manifest (pre ++ bad :: post) =
        (svc', .error .stopIteration) ∧
      List.Forall₂ (odExtended pre) svc'.ods svc.ods := by
  rcases lpm_ok_prefix pre svc hnd hpre with ⟨svc₁, hrun, _, _, hpairs, hf⟩
  refine ⟨svc₁, ?_, hf⟩
  rw [hrun (bad :: post), lpm_cons]
  have hbad₁ : ∀ od ∈ svc₁.ods, ¬ matchesOD bad od := by
    intro od hmem hmt
    rcases (exists_match_congr bad svc₁.ods svc.ods hpairs).mp ⟨od, hmem, hmt⟩ with
      ⟨od', hmem', hmt'⟩
    exact hbad od' hmem' hmt'
  rw [(appendPassenger_none_iff bad svc₁.ods).mpr hbad₁]

/-- Witness for C10: two matching passengers followed by an unmatched one
and a further matching one; the call fails with the two pre-appends kept. -/
theorem load_passenger_manifest_partial_witness :
    ∃ svc', scenarioService.load_passenger_manifest
        ([⟨0, ply, lpd, -30, 20⟩, ⟨1, ply, lpd, -25, 30⟩] ++
          ⟨9, lpd, ply, -5, 10⟩ :: [⟨4, ply, msc, -10, 50⟩]) =
        (svc', .error .stopIteration) ∧
      List.Forall₂ (odExtended [⟨0, ply, lpd, -30, 20⟩, ⟨1, ply, lpd, -25, 30⟩])
        svc'.ods scenarioService.ods :=
  load_passenger_manifest_partial scenarioService _ _ _ (by decide) (by decide)
    (by decide)

theorem chainLegs_map_origin : ∀ ss : List Station,
    (chainLegs ss).map Leg.origin = ss.dropLast
  | [] => rfl
  | [_] => rfl
  | s :: s' :: rest => by
      show s :: (chainLegs (s' :: rest)).map Leg.origin = s :: (s' :: rest).dropLast
      rw [chainLegs_map_origin (s' :: rest)]

theorem chainLegs_map_destination : ∀ ss : List Station,
    (chainLegs ss).map Leg.destination = ss.tail
  | [] => rfl
  | [_] => rfl
  | s :: s' :: rest => by
      show s' :: (chainLegs (s' :: rest)).map Leg.destination = s' :: rest
      rw [chainLegs_map_destination (s' :: rest)]
      rfl

theorem chainLegs_map_pair (ss : List Station) :
    (chainLegs ss).map (fun leg => (leg.origin, leg.destination)) = ss.zip ss.tail := by
  unfold chainLegs
  rw [List.map_map]
  exact List.map_id _

theorem chainLegs_length (ss : List Station) :
    (chainLegs ss).length = ss.length - 1 := by
  unfold chainLegs
  rw [List.length_map, List.length_zip, List.length_tail]
  omega

theorem stationOccurrences_perm {legs legs' : List Leg} (h : legs.Perm legs')
    (s : Station) : stationOccurrences legs s = stationOccurrences legs' s := by
  unfold stationOccurrences
  rw [(h.map Leg.origin).count_eq, (h.map Leg.destination).count_eq]

theorem stationOccurrences_chain (ss : List Station) (s : Station) :
    stationOccurrences (chainLegs ss) s = ss.dropLast.count s + ss.tail.count s := by
  unfold stationOccurrences
  rw [chainLegs_map_origin, chainLegs_map_destination]

theorem count_dropLast_getElem (ss : List Station) (hnd : ss.Nodup) (i : Nat)
    (hi : i < ss.length) :
    ss.dropLast.count ss[i] = if i < ss.length - 1 then 1 else 0 := by
  by_cases hlt : i < ss.length - 1
  · rw [if_pos hlt]
    apply List.count_eq_one_of_mem ((ss.dropLast_sublist).nodup hnd)
    exact List.mem_iff_getElem.mpr ⟨i, by rw [List.length_dropLast]; omega,
      List.getElem_dropLast ss i _⟩
  · rw [if_neg hlt]
    apply List.count_eq_zero_of_not_mem
    intro hmem
    rcases List.mem_iff_getElem.mp hmem with ⟨j, hj, hje⟩
    rw [List.getElem_dropLast] at hje
    have : j = i := (hnd.getElem_inj_iff).mp hje
    rw [List.length_dropLast] at hj
    omega

theorem count_tail_getElem (ss : List Station) (hnd : ss.Nodup) (i : Nat)
    (hi : i < ss.length) :
    ss.tail.count ss[i] = if 1 ≤ i then 1 else 0 := by
  by_cases h1 : 1 ≤ i
  · rw [if_pos h1]
    apply List.count_eq_one_of_mem ((ss.tail_sublist).nodup hnd)
    refine List.mem_iff_getElem.mpr ⟨i - 1, by rw [List.length_tail]; omega, ?_⟩
    rw [List.getElem_tail]
    congr 1
    omega
  · rw [if_neg h1]
    apply List.count_eq_zero_of_not_mem
    intro hmem
    rcases List.mem_iff_getElem.mp hmem with ⟨j, hj, hje⟩
    rw [List.getElem_tail] at hje
    have : j + 1 = i := (hnd.getElem_inj_iff).mp hje
    omega

theorem zip_tail_getElem (ss : List Station) (i : Nat) (hi1 : i < ss.length)
    (hi2 : i + 1 < ss.length) (hiz : i < (ss.zip ss.tail).length) :
    (ss.zip ss.tail).get ⟨i, hiz⟩ = (ss.get ⟨i, hi1⟩, ss.get ⟨i + 1, hi2⟩) := by
  simp only [List.get_eq_getElem]
  rw [List.getElem_zip, List.getElem_tail]

theorem mem_zip_tail (ss : List Station) (pq : Station × Station)
    (h : pq ∈ ss.zip ss.tail) :
    ∃ i, ∃ hi1 : i < ss.length, ∃ hi2 : i + 1 < ss.length,
      pq = (ss.get ⟨i, hi1⟩, ss.get ⟨i + 1, hi2⟩) := by
  rcases List.mem_iff_getElem.mp h with ⟨i, hiz, hie⟩
  have hiz' := hiz
  rw [List.length_zip, List.length_tail] at hiz'
  have hi1 : i < ss.length := by omega
  have hi2 : i + 1 < ss.length := by omega
  refine ⟨i, hi1, hi2, ?_⟩
  rw [← hie, ← zip_tail_getElem ss i hi1 hi2 hiz]
  simp only [List.get_eq_getElem]

theorem zip_tail_mem_of_index (ss : List Station) (i : Nat) (hi1 : i < ss.length)
    (hi2 : i + 1 < ss.length) :
    (ss.get ⟨i, hi1⟩, ss.get ⟨i + 1, hi2⟩) ∈ ss.zip ss.tail := by
  have hiz : i < (ss.zip ss.tail).length := by
    rw [List.length_zip, List.length_tail]
    omega
  rw [← zip_tail_getElem ss i hi1 hi2 hiz]
  exact (ss.zip ss.tail).get_mem i hiz

theorem dictInsert_of_not_mem (k v : Station) (d : List (Station × Station))
    (h : k ∉ d.map Prod.fst) : dictInsert k v d = d ++ [(k, v)] := by
  unfold dictInsert
  rw [if_neg]
  simp only [List.any_eq_true, decide_eq_true_eq, not_exists, not_and]
  intro p hp hpe
  exact h (hpe ▸ List.mem_map_of_mem Prod.fst hp)

theorem foldl_dictInsert_of_nodup :
    ∀ (legs : List Leg) (acc : List (Station × Station)),
      (acc.map Prod.fst ++ legs.map Leg.origin).Nodup →
      legs.foldl (fun d leg => dictInsert leg.origin leg.destination d) acc =
        acc ++ legs.map (fun leg => (leg.origin, leg.destination)) := by
  intro legs
  induction legs with
  | nil => intro acc _; simp
  | cons leg rest ih =>
      intro acc hnd
      have hno : leg.origin ∉ acc.map Prod.fst := by
        intro hin
        rcases List.nodup_append.mp hnd with ⟨_, _, hdisj⟩
        exact hdisj hin (by simp)
      rw [List.foldl_cons, dictInsert_of_not_mem leg.origin leg.destination acc hno, ih]
      · simp
      · simpa [List.append_assoc] using hnd

theorem stationConnections_eq (legs : List Leg) (hnd : (legs.map Leg.origin).Nodup) :
    stationConnections legs =
      legs.map (fun leg => (leg.origin, leg.destination)) := by
  have := foldl_dictInsert_of_nodup legs [] (by simpa using hnd)
  simpa [stationConnections] using this

theorem find?_eq_some_of_unique {α : Type} (p : α → Bool) :
    ∀ (l : List α) (x : α), x ∈ l → p x = true →
      (∀ y ∈ l, p y = true → y = x) → l.find? p = some x := by
  intro l
  induction l with
  | nil => intro x hx; cases hx
  | cons a rest ih =>
      intro x hx hpx huniq
      by_cases hpa : p a = true
      · rw [List.find?_cons_of_pos _ hpa, huniq a (List.mem_cons_self a rest) hpa]
      · rw [List.find?_cons_of_neg _ (by simpa using hpa)]
        have hx' : x ∈ rest := by
          rcases List.mem_cons.mp hx with rfl | h
          · exact absurd hpx hpa
          · exact h
        exact ih x hx' hpx (fun y hy hpy => huniq y (List.mem_cons_of_mem a hy) hpy)

theorem eq_of_fst_eq_of_nodup_keys :
    ∀ (l : List (Station × Station)), (l.map Prod.fst).Nodup →
      ∀ y z : Station × Station, y ∈ l → z ∈ l → y.1 = z.1 → y = z := by
  intro l
  induction l with
  | nil => intro _ y z hy; cases hy
  | cons a rest ih =>
      intro hnd y z hy hz he
      rw [List.map_cons, List.nodup_cons] at hnd
      rcases List.mem_cons.mp hy with rfl | hy' <;> rcases List.mem_cons.mp hz with rfl | hz'
      · rfl
      · exact absurd (he ▸ List.mem_map_of_mem Prod.fst hz') hnd.1
      · exact absurd (he ▸ List.mem_map_of_mem Prod.fst hy') (by
          intro hc
          exact hnd.1 hc)
      · exact ih hnd.2 y z hy' hz' he

theorem conn_find_of_mem (conn : List (Station × Station))
    (hnd : (conn.map Prod.fst).Nodup) (pq : Station × Station) (hmem : pq ∈ conn) :
    conn.find? (fun q => decide (q.1 = pq.1)) = some pq := by
  apply find?_eq_some_of_unique _ conn pq hmem (by simp)
  intro y hy hpy
  exact eq_of_fst_eq_of_nodup_keys conn hnd y pq hy hmem (by simpa using hpy)

theorem calcWalk_chain :
    ∀ (tl : List Station) (s : Station) (conn : List (Station × Station)) (fuel : Nat),
      (∀ pq ∈ (s :: tl).zip tl, conn.find? (fun q => decide (q.1 = pq.1)) = some pq) →
      (s :: tl).getLast (List.cons_ne_nil s tl) ∉ (s :: tl).dropLast →
      tl.length + 1 ≤ fuel →
      calcWalk conn ((s :: tl).getLast (List.cons_ne_nil s tl)) fuel s = .ok (s :: tl) := by
  intro tl
  induction tl with
  | nil =>
      intro s conn fuel _ _ hfuel
      match fuel, hfuel with
      | f + 1, _ =>
        show calcWalk conn s (f + 1) s = .ok [s]
        unfold calcWalk
        rw [if_pos rfl]
  | cons s' rest ih =>
      intro s conn fuel hfind hlast hfuel
      match fuel, hfuel with
      | f + 1, hfuel =>
        have hgl : (s :: s' :: rest).getLast (List.cons_ne_nil s (s' :: rest)) =
            (s' :: rest).getLast (List.cons_ne_nil s' rest) :=
          List.getLast_cons (List.cons_ne_nil s' rest)
        have hne : ¬ s = (s :: s' :: rest).getLast (List.cons_ne_nil s (s' :: rest)) := by
          intro he
          apply hlast
          rw [← he]
          exact List.mem_cons_self s ((s' :: rest).dropLast)
        show calcWalk conn _ (f + 1) s = _
        unfold calcWalk
        rw [if_neg hne, hfind (s, s') (List.mem_cons_self (s, s') _), hgl]
        have hrec := ih s' conn f
          (fun pq hpq => hfind pq (List.mem_cons_of_mem (s, s') hpq))
          (by
            intro hmem
            rw [hgl] at hlast
            exact hlast (List.mem_cons_of_mem s hmem))
          (by simp only [List.length_cons] at hfuel; omega)
        show Except.map (fun x => s :: x)
          (calcWalk conn ((s' :: rest).getLast (List.cons_ne_nil s' rest)) f s') =
            Except.ok (s :: s' :: rest)
        rw [hrec]
        rfl

theorem calculate_itinerary_perm (ss : List Station) (hnd : ss.Nodup)
    (hk : 2 ≤ ss.length) (legs : List Leg) (hperm : legs.Perm (chainLegs ss)) :
    _calculate_itinerary legs = .ok ss := by
  have horig : (legs.map Leg.origin).Nodup := by
    rw [(hperm.map Leg.origin).nodup_iff, chainLegs_map_origin]
    exact (ss.dropLast_sublist).nodup hnd
  have hconn : stationConnections legs =
      legs.map (fun leg => (leg.origin, leg.destination)) :=
    stationConnections_eq legs horig
  have hconnperm : (stationConnections legs).Perm (ss.zip ss.tail) := by
    rw [hconn, ← chainLegs_map_pair ss]
    exact hperm.map _
  have hkeys : ((stationConnections legs).map Prod.fst).Nodup := by
    rw [hconn, List.map_map]
    exact horig
  have hocc : ∀ i, ∀ hi : i < ss.length, stationOccurrences legs ss[i] =
      (if i < ss.length - 1 then 1 else 0) + (if 1 ≤ i then 1 else 0) := by
    intro i hi
    rw [stationOccurrences_perm hperm, stationOccurrences_chain,
      count_dropLast_getElem ss hnd i hi, count_tail_getElem ss hnd i hi]
  have hconnmem : ∀ pq, pq ∈ stationConnections legs ↔ pq ∈ ss.zip ss.tail :=
    fun _ => hconnperm.mem_iff
  have h0 : 0 < ss.length := by omega
  have h1 : 1 < ss.length := by omega
  have hk2 : ss.length - 2 < ss.length := by omega
  have hk1 : ss.length - 1 < ss.length := by omega
  have hk21 : ss.length - 2 + 1 < ss.length := by omega
  have hdep : (stationConnections legs).find?
      (fun p => decide (stationOccurrences legs p.1 = 1)) =
        some (ss[0], ss[1]) := by
    apply find?_eq_some_of_unique
    · exact (hconnmem _).mpr (zip_tail_mem_of_index ss 0 h0 h1)
    · simp only [decide_eq_true_eq]
      show stationOccurrences legs ss[0] = 1
      rw [hocc 0 h0, if_pos (by omega), if_neg (by omega)]
    · intro y hy hpy
      rcases mem_zip_tail ss y ((hconnmem y).mp hy) with ⟨i, hi1, hi2, rfl⟩
      simp only [decide_eq_true_eq] at hpy
      have hpy' : stationOccurrences legs ss[i] = 1 := hpy
      rw [hocc i hi1] at hpy'
      have hi0 : i = 0 := by
        split_ifs at hpy' <;> omega
      subst hi0
      rfl
  have hdst : (stationConnections legs).find?
      (fun p => decide (stationOccurrences legs p.2 = 1)) =
        some (ss[ss.length - 2], ss[ss.length - 1]) := by
    have hix : ss[ss.length - 2 + 1] = ss[ss.length - 1] := by
      congr 1
      omega
    apply find?_eq_some_of_unique
    · have := zip_tail_mem_of_index ss (ss.length - 2) hk2 hk21
      simp only [List.get_eq_getElem] at this
      rw [hix] at this
      exact (hconnmem _).mpr this
    · simp only [decide_eq_true_eq]
      show stationOccurrences legs ss[ss.length - 1] = 1
      rw [hocc (ss.length - 1) hk1, if_neg (by omega), if_pos (by omega)]
    · intro y hy hpy
      rcases mem_zip_tail ss y ((hconnmem y).mp hy) with ⟨i, hi1, hi2, rfl⟩
      simp only [decide_eq_true_eq] at hpy
      have hpy' : stationOccurrences legs ss[i + 1] = 1 := hpy
      rw [hocc (i + 1) hi2] at hpy'
      have hieq : i = ss.length - 2 := by
        split_ifs at hpy' <;> omega
      subst hieq
      simp only [List.get_eq_getElem]
      rw [hix]
  have hlen : legs.length = ss.length - 1 := by
    rw [hperm.length_eq, chainLegs_length]
  have hwalk : calcWalk (stationConnections legs) ss[ss.length - 1]
      (legs.length + 1) ss[0] = .ok ss := by
    obtain ⟨s, tl, rfl⟩ : ∃ s tl, ss = s :: tl := by
      cases ss with
      | nil => simp at hk
      | cons s tl => exact ⟨s, tl, rfl⟩
    have hlast : (s :: tl).getLast (List.cons_ne_nil s tl) ∉ (s :: tl).dropLast := by
      intro hmem
      rcases List.mem_iff_getElem.mp hmem with ⟨j, hj, hje⟩
      rw [List.getElem_dropLast, List.getLast_eq_getElem] at hje
      have := (hnd.getElem_inj_iff).mp hje
      rw [List.length_dropLast] at hj
      omega
    have hmain := calcWalk_chain tl s (stationConnections legs) (legs.length + 1)
      (fun pq hpq => conn_find_of_mem _ hkeys pq ((hconnmem pq).mpr hpq))
      hlast
      (by simp only [List.length_cons] at hlen ⊢; omega)
    rw [List.getLast_eq_getElem] at hmain
    exact hmain
  unfold _calculate_itinerary _find_departure_and_destination
  rw [hdep, hdst]
  exact hwalk

theorem combinations2_length_double : ∀ l : List Station,
    2 * (combinations2 l).length = l.length * (l.length - 1) := by
  intro l
  induction l with
  | nil => rfl
  | cons s rest ih =>
      simp only [combinations2, List.length_append, List.length_map, List.length_cons,
        Nat.add_sub_cancel]
      have key : ∀ m c : Nat, 2 * c = m * (m - 1) → 2 * (m + c) = (m + 1) * m := by
        intro m c h
        cases m with
        | zero => omega
        | succ m' =>
            have hm : m' + 1 - 1 = m' := rfl
            rw [hm] at h
            calc 2 * (m' + 1 + c) = 2 * (m' + 1) + 2 * c := by ring
              _ = 2 * (m' + 1) + (m' + 1) * m' := by rw [h]
              _ = (m' + 1 + 1) * (m' + 1) := by ring
      exact key rest.length _ ih

/-- C2: for every well-formed itinerary, i.e. every sequence of k ≥ 2
distinct stations, loading it on a fresh service creates exactly k-1 legs
and exactly k*(k-1)/2 ODs, and `Service.itinerary` then returns exactly the
original station sequence; the reconstruction depends only on which legs
exist, not on the order of the legs collection: it returns the same
sequence for any permutation of the legs list. -/
theorem load_itinerary_spec (name : String) (ss : List Station)
    (hk : 2 ≤ ss.length) (hnd : ss.Nodup) :
    (Service.load_itinerary ⟨name, [], []⟩ ss).legs.length = ss.length - 1 ∧
    (Service.load_itinerary ⟨name, [], []⟩ ss).ods.length =
      ss.length * (ss.length - 1) / 2 ∧
    (Service.load_itinerary ⟨name, [], []⟩ ss).itinerary = .ok ss ∧
    (∀ legs' : List Leg,
      legs'.Perm (Service.load_itinerary ⟨name, [], []⟩ ss).legs →
      _calculate_itinerary legs' = .ok ss) := by
  have hlegs : (Service.load_itinerary ⟨name, [], []⟩ ss).legs = chainLegs ss := rfl
  have hods : (Service.load_itinerary ⟨name, [], []⟩ ss).ods =
      (combinations2 ss).map (fun p => OD.mk p.1 p.2 []) := rfl
  refine ⟨?_, ?_, ?_, ?_⟩
  · rw [hlegs, chainLegs_length]
  · rw [hods, List.length_map]
    have := combinations2_length_double ss
    omega
  · show _calculate_itinerary (Service.load_itinerary ⟨name, [], []⟩ ss).legs = .ok ss
    rw [hlegs]
    exact calculate_itinerary_perm ss hnd hk _ (List.Perm.refl _)
  · intro legs' hp
    rw [hlegs] at hp
    exact calculate_itinerary_perm ss hnd hk legs' hp

/-- Witness for C2: the script's 3-station itinerary gives 2 legs, 3 ODs
and is recovered exactly, whatever the order of the legs. -/
theorem load_itinerary_spec_witness :
    (Service.load_itinerary ⟨"7601", [], []⟩ [ply, lpd, msc]).legs.length =
      [ply, lpd, msc].length - 1 ∧
    (Service.load_itinerary ⟨"7601", [], []⟩ [ply, lpd, msc]).ods.length =
      [ply, lpd, msc].length * ([ply, lpd, msc].length - 1) / 2 ∧
    (Service.load_itinerary ⟨"7601", [], []⟩ [ply, lpd, msc]).itinerary =
      .ok [ply, lpd, msc] ∧
    (∀ legs' : List Leg,
      legs'.Perm (Service.load_itinerary ⟨"7601", [], []⟩ [ply, lpd, msc]).legs →
      _calculate_itinerary legs' = .ok [ply, lpd, msc]) :=
  load_itinerary_spec "7601" [ply, lpd, msc] (by decide) (by decide)

theorem findIdx?_eq_of_unique :
    ∀ (l : List Station) (x : Station) (a s : Nat) (ha : a < l.length),
      l[a] = x → (∀ j, ∀ hj : j < l.length, l[j] = x → j = a) →
      l.findIdx? (fun y => decide (y = x)) s = some (s + a) := by
  intro l
  induction l with
  | nil => intro x a s ha; simp at ha
  | cons b rest ih =>
      intro x a s ha hx huniq
      rw [List.findIdx?_cons]
      cases a with
      | zero =>
          have hbx : b = x := hx
          rw [if_pos (by simp [hbx])]
          rw [Nat.add_zero]
      | succ a' =>
          have hb : ¬ b = x := by
            intro hbx
            have h0 : (0 : Nat) = a' + 1 := huniq 0 (by omega) hbx
            omega
          rw [if_neg (by simpa using hb)]
          have ha' : a' < rest.length := by simpa using ha
          have hx' : rest[a'] = x := hx
          have huniq' : ∀ j, ∀ hj : j < rest.length, rest[j] = x → j = a' := by
            intro j hj hje
            have : j + 1 = a' + 1 :=
              huniq (j + 1) (by simpa using hj) (by simpa using hje)
            omega
          rw [ih x a' (s + 1) (by simpa using ha) hx' huniq']
          congr 1
          omega

theorem findIdx?_none_of_not_mem (x : Station) :
    ∀ (l : List Station) (s : Nat), x ∉ l →
      l.findIdx? (fun y => decide (y = x)) s = none := by
  intro l
  induction l with
  | nil => intro s _; rfl
  | cons b rest ih =>
      intro s hx
      have hb : ¬ b = x := fun hbx => hx (hbx ▸ List.mem_cons_self b rest)
      rw [List.findIdx?_cons, if_neg (by simpa using hb)]
      exact ih (s + 1) (fun h => hx (List.mem_cons_of_mem b h))

theorem findIdx?_some_of_mem (x : Station) :
    ∀ (l : List Station) (s : Nat), x ∈ l →
      ∃ i, l.findIdx? (fun y => decide (y = x)) s = some i := by
  intro l
  induction l with
  | nil => intro s hx; cases hx
  | cons b rest ih =>
      intro s hx
      by_cases hb : b = x
      · exact ⟨s, by rw [List.findIdx?_cons, if_pos (by simp [hb])]⟩
      · rw [List.findIdx?_cons, if_neg (by simpa using hb)]
        apply ih
        rcases List.mem_cons.mp hx with rfl | h
        · exact absurd rfl hb
        · exact h

theorem listIndex_nodup (l : List Station) (hnd : l.Nodup) (a : Nat)
    (ha : a < l.length) : listIndex l l[a] = .ok a := by
  unfold listIndex
  rw [findIdx?_eq_of_unique l l[a] a 0 ha rfl
    (fun j hj hje => (hnd.getElem_inj_iff).mp hje), Nat.zero_add]

theorem listIndex_not_mem (l : List Station) (s : Station) (h : s ∉ l) :
    listIndex l s = .error .valueError := by
  unfold listIndex
  rw [findIdx?_none_of_not_mem s l 0 h]

theorem except_bind_ok {ε α β : Type} (a : α) (f : α → Except ε β) :
    (Except.ok a : Except ε α) >>= f = f a := rfl

theorem except_bind_error {ε α β : Type} (e : ε) (f : α → Except ε β) :
    (Except.error e : Except ε α) >>= f = .error e := rfl

theorem except_pure {ε α : Type} (a : α) :
    (pure a : Except ε α) = .ok a := rfl

theorem itinerary_of_load (name : String) (ss : List Station) (hk : 2 ≤ ss.length)
    (hnd : ss.Nodup) :
    (Service.load_itinerary ⟨name, [], []⟩ ss).itinerary = .ok ss :=
  calculate_itinerary_perm ss hnd hk _ (List.Perm.refl _)

/-- C6: for every OD on a well-formed service whose origin and destination
both appear in the itinerary with the origin strictly before the
destination, `od.legs` equals the contiguous slice of the service's leg
sequence from the origin's itinerary index up to but excluding the
destination's itinerary index, and its length is the difference of the two
indices. -/
theorem od_legs_slice (name : String) (ss : List Station) (hk : 2 ≤ ss.length)
    (hnd : ss.Nodup) (od : OD) (a b : Nat) (ha : a < ss.length)
    (hb : b < ss.length) (hab : a < b) (hoa : od.origin = ss[a])
    (hob : od.destination = ss[b]) :
    OD.legs (Service.load_itinerary ⟨name, [], []⟩ ss) od =
      .ok (((Service.load_itinerary ⟨name, [], []⟩ ss).legs.drop a).take (b - a)) ∧
    (((Service.load_itinerary ⟨name, [], []⟩ ss).legs.drop a).take (b - a)).length
      = b - a := by
  constructor
  · unfold OD.legs
    rw [hoa, hob]
    simp only [itinerary_of_load name ss hk hnd, except_bind_ok,
      listIndex_nodup ss hnd a ha, listIndex_nodup ss hnd b hb, except_pure]
  · rw [List.length_take, List.length_drop]
    have hl : (Service.load_itinerary ⟨name, [], []⟩ ss).legs.length =
        ss.length - 1 := by
      rw [show (Service.load_itinerary ⟨name, [], []⟩ ss).legs = chainLegs ss from rfl,
        chainLegs_length]
    omega

/-- Witness for C6: the legs of the ply-msc OD of the script's service are
the slice `legs[0:2]`, of length 2. -/
theorem od_legs_slice_witness :
    OD.legs (Service.load_itinerary ⟨"7601", [], []⟩ [ply, lpd, msc]) ⟨ply, msc, []⟩ =
      .ok (((Service.load_itinerary ⟨"7601", [], []⟩
        [ply, lpd, msc]).legs.drop 0).take (2 - 0)) ∧
    (((Service.load_itinerary ⟨"7601", [], []⟩
        [ply, lpd, msc]).legs.drop 0).take (2 - 0)).length = 2 - 0 :=
  od_legs_slice "7601" [ply, lpd, msc] (by decide) (by decide) ⟨ply, msc, []⟩ 0 2
    (by decide) (by decide) (by decide) (by decide) (by decide)

/-- C7 (amended): for every OD on a well-formed service, if the OD's origin
or its destination does not appear in the service's itinerary, accessing
`od.legs` raises `ValueError` (the exception of Python's `list.index` on a
missing element — not a `LookupError`). -/
theorem od_legs_absent_valueError (name : String) (ss : List Station)
    (hk : 2 ≤ ss.length) (hnd : ss.Nodup) (od : OD)
    (h : od.origin ∉ ss ∨ od.destination ∉ ss) :
    OD.legs (Service.load_itinerary ⟨name, [], []⟩ ss) od = .error .valueError := by
  unfold OD.legs
  rcases h with h | h
  · simp only [itinerary_of_load name ss hk hnd, except_bind_ok,
      listIndex_not_mem ss od.origin h, except_bind_error]
  · by_cases ho : od.origin ∈ ss
    · rcases findIdx?_some_of_mem od.origin ss 0 ho with ⟨i, hi⟩
      have hok : listIndex ss od.origin = .ok i := by
        unfold listIndex
        rw [hi]
      simp only [itinerary_of_load name ss hk hnd, except_bind_ok, hok,
        listIndex_not_mem ss od.destination h, except_bind_error]
    · simp only [itinerary_of_load name ss hk hnd, except_bind_ok,
        listIndex_not_mem ss od.origin ho, except_bind_error]

/-- Witness for C7 (amended): an OD whose origin is a station foreign to
the itinerary raises `ValueError`. -/
theorem od_legs_absent_valueError_witness :
    OD.legs (Service.load_itinerary ⟨"7601", [], []⟩ [ply, lpd, msc])
      ⟨⟨3, "xyz"⟩, lpd, []⟩ = .error .valueError :=
  od_legs_absent_valueError "7601" [ply, lpd, msc] (by decide) (by decide)
    ⟨⟨3, "xyz"⟩, lpd, []⟩ (Or.inl (by decide))

/-- Counterexample to C7 as stated: on the script's service, an OD whose
origin is not in the itinerary makes `od.legs` raise `ValueError`, which is
not a `LookupError` in Python's exception hierarchy. -/
theorem od_legs_raises_no_lookupError :
    OD.legs scenarioService ⟨⟨3, "xyz"⟩, lpd, []⟩ = .error .valueError ∧
      PyExc.valueError.isLookupError = false :=
  ⟨by decide, rfl⟩

theorem collectLegPassengers_ok (svc : Service) (leg : Leg) :
    ∀ ods : List OD, (∀ od ∈ ods, (OD.legs svc od).isOk = true) →
      ∃ res, collectLegPassengers svc leg ods = .ok res ∧
        ∀ p : Passenger, p ∈ res ↔
          ∃ od ∈ ods, ∃ ls, OD.legs svc od = .ok ls ∧ leg ∈ ls ∧
            p ∈ od.passengers := by
  intro ods
  induction ods with
  | nil =>
      intro _
      exact ⟨[], rfl, by simp⟩
  | cons od rest ih =>
      intro hok
      have hod := hok od (List.mem_cons_self od rest)
      obtain ⟨ls, hls⟩ : ∃ ls, OD.legs svc od = .ok ls := by
        cases h : OD.legs svc od with
        | ok ls => exact ⟨ls, rfl⟩
        | error e => rw [h] at hod; cases hod
      rcases ih (fun o ho => hok o (List.mem_cons_of_mem od ho)) with ⟨tail, htail, hiff⟩
      by_cases hmem : leg ∈ ls
      · refine ⟨od.passengers ++ tail, ?_, ?_⟩
        · simp only [collectLegPassengers, hls, except_bind_ok, htail, if_pos hmem,
            except_pure]
        · intro p
          rw [List.mem_append, hiff p]
          constructor
          · intro h
            rcases h with h | ⟨od', hmem', hrest⟩
            · exact ⟨od, List.mem_cons_self od rest, ls, hls, hmem, h⟩
            · exact ⟨od', List.mem_cons_of_mem od hmem', hrest⟩
          · intro ⟨od', hmem', ls', hls', hleg', hp'⟩
            rcases List.mem_cons.mp hmem' with rfl | hmem''
            · exact Or.inl hp'
            · exact Or.inr ⟨od', hmem'', ls', hls', hleg', hp'⟩
      · refine ⟨tail, ?_, ?_⟩
        · simp only [collectLegPassengers, hls, except_bind_ok, htail, if_neg hmem,
            except_pure]
        · intro p
          rw [hiff p]
          constructor
          · intro ⟨od', hmem', hrest⟩
            exact ⟨od', List.mem_cons_of_mem od hmem', hrest⟩
          · intro ⟨od', hmem', ls', hls', hleg', hp'⟩
            rcases List.mem_cons.mp hmem' with rfl | hmem''
            · rw [hls] at hls'
              cases hls'
              exact absurd hleg' hmem
            · exact ⟨od', hmem'', ls', hls', hleg', hp'⟩

/-- C9: for every leg of a service on which every OD's `legs` view is
defined, `leg.passengers` succeeds with a duplicate-free list holding
exactly the passengers that belong to some OD of the service whose `legs`
view includes this leg; in the worked 3-station scenario the ply-lpd leg
has 5 passengers and the lpd-msc leg has 1. -/
theorem leg_passengers_spec :
    (∀ (svc : Service) (leg : Leg),
      (∀ od ∈ svc.ods, (OD.legs svc od).isOk = true) →
      ∃ res, Leg.passengers svc leg = .ok res ∧ res.Nodup ∧
        ∀ p : Passenger, p ∈ res ↔
          ∃ od ∈ svc.ods, ∃ ls, OD.legs svc od = .ok ls ∧ leg ∈ ls ∧
            p ∈ od.passengers) ∧
    (Leg.passengers scenarioLoaded ⟨ply, lpd⟩).map List.length = .ok 5 ∧
    (Leg.passengers scenarioLoaded ⟨lpd, msc⟩).map List.length = .ok 1 := by
  refine ⟨?_, by decide, by decide⟩
  intro svc leg hok
  rcases collectLegPassengers_ok svc leg svc.ods hok with ⟨res, hres, hiff⟩
  refine ⟨res.dedup, ?_, List.nodup_dedup res, ?_⟩
  · show (collectLegPassengers svc leg svc.ods).map List.dedup = _
    rw [hres]
    rfl
  · intro p
    rw [List.mem_dedup]
    exact hiff p

/-- Witness for C9: the general part applied to the loaded scenario service
and its ply-lpd leg. -/
theorem leg_passengers_spec_witness :
    ∃ res, Leg.passengers scenarioLoaded ⟨ply, lpd⟩ = .ok res ∧ res.Nodup ∧
      ∀ p : Passenger, p ∈ res ↔
        ∃ od ∈ scenarioLoaded.ods, ∃ ls, OD.legs scenarioLoaded od = .ok ls ∧
          (⟨ply, lpd⟩ : Leg) ∈ ls ∧ p ∈ od.passengers :=
  leg_passengers_spec.1 scenarioLoaded ⟨ply, lpd⟩ (by decide)

theorem countP_le_split (ps : List Passenger) (c d : Int) (hcd : c ≤ d)
    (hmem : ∀ p ∈ ps, p.sale_day_x < c ∨ p.sale_day_x = d ∨ d < p.sale_day_x) :
    ps.countP (fun p => decide (p.sale_day_x ≤ d)) =
      ps.countP (fun p => decide (p.sale_day_x < c)) +
        ps.countP (fun p => decide (p.sale_day_x = d)) := by
  induction ps with
  | nil => rfl
  | cons p rest ih =>
      have hp := hmem p (List.mem_cons_self p rest)
      have ih' := ih (fun q hq => hmem q (List.mem_cons_of_mem p hq))
      simp only [List.countP_cons, decide_eq_true_eq, ih']
      rcases hp with h | h | h <;> split_ifs <;> omega

theorem revenue_le_split (ps : List Passenger) (c d : Int) (hcd : c ≤ d)
    (hmem : ∀ p ∈ ps, p.sale_day_x < c ∨ p.sale_day_x = d ∨ d < p.sale_day_x) :
    ((ps.filter (fun p => decide (p.sale_day_x ≤ d))).map Passenger.price).sum =
      ((ps.filter (fun p => decide (p.sale_day_x < c))).map Passenger.price).sum +
        ((ps.filter (fun p => decide (p.sale_day_x = d))).map Passenger.price).sum := by
  induction ps with
  | nil => simp
  | cons p rest ih =>
      have hp := hmem p (List.mem_cons_self p rest)
      have ih' := ih (fun q hq => hmem q (List.mem_cons_of_mem p hq))
      simp only [List.filter_cons, decide_eq_true_eq]
      rcases hp with h | h | h
      · rw [if_pos (by omega), if_pos h, if_neg (by omega)]
        simp only [List.map_cons, List.sum_cons, ih']
        ring
      · rw [if_pos (by omega), if_neg (by omega), if_pos h]
        simp only [List.map_cons, List.sum_cons, ih']
        ring
      · rw [if_neg (by omega), if_neg (by omega), if_neg (by omega)]
        exact ih'

theorem cumulate_days (ps : List Passenger) :
    ∀ (days : List Int) (c : Int),
      days.Sorted (· < ·) →
      (∀ d ∈ days, c ≤ d) →
      (∀ p ∈ ps, p.sale_day_x < c ∨ p.sale_day_x ∈ days) →
      cumulate (ps.countP (fun p => decide (p.sale_day_x < c)),
          ((ps.filter (fun p => decide (p.sale_day_x < c))).map Passenger.price).sum)
        (days.map (fun d =>
          (d, (ps.filter (fun p => decide (p.sale_day_x = d))).length,
            ((ps.filter (fun p => decide (p.sale_day_x = d))).map
              Passenger.price).sum))) =
      days.map (fun d =>
        (d, ps.countP (fun p => decide (p.sale_day_x ≤ d)),
          ((ps.filter (fun p => decide (p.sale_day_x ≤ d))).map
            Passenger.price).sum)) := by
  intro days
  induction days with
  | nil => intro c _ _ _; rfl
  | cons d rest ih =>
      intro c hsort hge hmem
      have hcd : c ≤ d := hge d (List.mem_cons_self d rest)
      have hrest_gt : ∀ d' ∈ rest, d < d' := (List.sorted_cons.mp hsort).1
      have htri : ∀ p ∈ ps, p.sale_day_x < c ∨ p.sale_day_x = d ∨ d < p.sale_day_x := by
        intro p hp
        rcases hmem p hp with h | h
        · exact Or.inl h
        · rcases List.mem_cons.mp h with heq | hr
          · exact Or.inr (Or.inl heq)
          · exact Or.inr (Or.inr (hrest_gt _ hr))
      simp only [List.map_cons, cumulate]
      have hcnt : ps.countP (fun p => decide (p.sale_day_x < c)) +
          (ps.filter (fun p => decide (p.sale_day_x = d))).length =
            ps.countP (fun p => decide (p.sale_day_x ≤ d)) := by
        rw [← List.countP_eq_length_filter]
        exact (countP_le_split ps c d hcd htri).symm
      have hrev : ((ps.filter (fun p => decide (p.sale_day_x < c))).map
            Passenger.price).sum +
          ((ps.filter (fun p => decide (p.sale_day_x = d))).map Passenger.price).sum =
            ((ps.filter (fun p => decide (p.sale_day_x ≤ d))).map Passenger.price).sum :=
        (revenue_le_split ps c d hcd htri).symm
      rw [hcnt, hrev]
      have hcc : ps.countP (fun p => decide (p.sale_day_x ≤ d)) =
          ps.countP (fun p => decide (p.sale_day_x < d + 1)) :=
        List.countP_congr (fun p _ => by simp only [decide_eq_true_eq]; omega)
      have hfc : ps.filter (fun p => decide (p.sale_day_x ≤ d)) =
          ps.filter (fun p => decide (p.sale_day_x < d + 1)) :=
        List.filter_congr (fun p _ => decide_eq_decide.mpr (by omega))
      rw [hcc, hfc]
      rw [ih (d + 1) (List.sorted_cons.mp hsort).2
        (fun d' hd' => by have := hrest_gt d' hd'; omega)
        (by
          intro p hp
          rcases hmem p hp with h | h
          · exact Or.inl (by omega)
          · rcases List.mem_cons.mp h with heq | hr
            · exact Or.inl (by omega)
            · exact Or.inr hr)]

theorem sortedDays_perm (ps : List Passenger) :
    (sortedDays ps).Perm (ps.map Passenger.sale_day_x).dedup :=
  List.perm_insertionSort _ _

theorem sortedDays_nodup (ps : List Passenger) : (sortedDays ps).Nodup :=
  (sortedDays_perm ps).nodup_iff.mpr (List.nodup_dedup _)

theorem sortedDays_sorted_lt (ps : List Passenger) :
    (sortedDays ps).Sorted (· < ·) := by
  have h1 : (sortedDays ps).Pairwise (· ≤ ·) := List.sorted_insertionSort _ _
  have h2 : (sortedDays ps).Pairwise (· ≠ ·) := sortedDays_nodup ps
  exact (h1.and h2).imp (fun h => lt_of_le_of_ne h.1 h.2)

theorem sortedDays_mem (ps : List Passenger) (d : Int) :
    d ∈ sortedDays ps ↔ d ∈ ps.map Passenger.sale_day_x := by
  rw [(sortedDays_perm ps).mem_iff, List.mem_dedup]

theorem history_eq (od : OD) :
    od.history = (sortedDays od.passengers).map (fun d =>
      (d, od.passengers.countP (fun p => decide (p.sale_day_x ≤ d)),
        ((od.passengers.filter (fun p => decide (p.sale_day_x ≤ d))).map
          Passenger.price).sum)) := by
  show cumulate (0, 0) ((sortedDays od.passengers).map _) = _
  cases hd : sortedDays od.passengers with
  | nil => rfl
  | cons d0 rest =>
      have hsorted : (d0 :: rest).Sorted (· < ·) := hd ▸ sortedDays_sorted_lt od.passengers
      have hmin : ∀ d' ∈ (d0 :: rest : List Int), d0 ≤ d' := by
        intro d' hd'
        rcases List.mem_cons.mp hd' with rfl | hr
        · exact le_refl d'
        · exact le_of_lt ((List.sorted_cons.mp hsorted).1 d' hr)
      have hdays : ∀ p ∈ od.passengers, p.sale_day_x ∈ (d0 :: rest : List Int) := by
        intro p hp
        rw [← hd, sortedDays_mem]
        exact List.mem_map_of_mem Passenger.sale_day_x hp
      have hc0 : od.passengers.countP (fun p => decide (p.sale_day_x < d0)) = 0 := by
        rw [List.countP_eq_zero]
        intro p hp
        simp only [decide_eq_true_eq]
        have := hmin _ (hdays p hp)
        omega
      have hf0 : od.passengers.filter (fun p => decide (p.sale_day_x < d0)) = [] := by
        rw [List.filter_eq_nil_iff]
        intro p hp
        simp only [decide_eq_true_eq]
        have := hmin _ (hdays p hp)
        omega
      have hstart : ((0 : Nat), (0 : ℚ)) =
          (od.passengers.countP (fun p => decide (p.sale_day_x < d0)),
            ((od.passengers.filter (fun p => decide (p.sale_day_x < d0))).map
              Passenger.price).sum) := by
        rw [hc0, hf0]
        rfl
      rw [hstart]
      exact cumulate_days od.passengers (d0 :: rest) d0 hsorted hmin
        (fun p hp => Or.inr (hdays p hp))

/-- C4: for every OD, `history()` returns one row per distinct sale day
present among the OD's passengers, sorted strictly ascending by day; each
row holds the day together with the cumulative booking count and cumulative
revenue of all passengers whose sale day is at most that day (the running
totals of that day's and all earlier rows' contributions); days with no
passengers produce no row.  In the worked 3-station scenario,
`od(ply,lpd).history()` equals `[(-30,1,20), (-25,2,50), (-20,4,130)]`. -/
theorem history_spec :
    (∀ od : OD,
      (od.history.map (fun r => r.1)).Sorted (· < ·) ∧
      (∀ d : Int, d ∈ od.history.map (fun r => r.1) ↔
        d ∈ od.passengers.map Passenger.sale_day_x) ∧
      (∀ row ∈ od.history,
        row.2.1 = od.passengers.countP (fun p => decide (p.sale_day_x ≤ row.1)) ∧
        row.2.2 = ((od.passengers.filter
          (fun p => decide (p.sale_day_x ≤ row.1))).map Passenger.price).sum)) ∧
    (odOf scenarioLoaded ply lpd).map OD.history =
      some [(-30, 1, 20), (-25, 2, 50), (-20, 4, 130)] := by
  constructor
  · intro od
    have hfst : od.history.map (fun r => r.1) = sortedDays od.passengers := by
      rw [history_eq, List.map_map]
      exact List.map_id' _
    refine ⟨?_, ?_, ?_⟩
    · rw [hfst]
      exact sortedDays_sorted_lt od.passengers
    · intro d
      rw [hfst]
      exact sortedDays_mem od.passengers d
    · intro row hrow
      rw [history_eq] at hrow
      rcases List.mem_map.mp hrow with ⟨d, _, rfl⟩
      exact ⟨rfl, rfl⟩
  · norm_num [OD.history, sortedDays, cumulate, odOf, scenarioLoaded, scenarioService,
      scenarioManifest, Service.load_passenger_manifest, Service.load_itinerary,
      Service.load_legs, Service.load_ods, appendPassenger, combinations2,
      ply, lpd, msc]

/-- Witness for C4: the row of a one-passenger OD carries that passenger's
day, a cumulative booking count of 1 and the passenger's price as
cumulative revenue. -/
theorem history_spec_witness :
    ((-30 : Int), (1 : Nat), (20 : ℚ)) ∈ (OD.mk ply lpd [⟨0, ply, lpd, -30, 20⟩]).history ∧
    (((-30 : Int), (1 : Nat), (20 : ℚ)).2.1 =
      (OD.mk ply lpd [⟨0, ply, lpd, -30, 20⟩]).passengers.countP
        (fun p => decide (p.sale_day_x ≤ ((-30 : Int), (1 : Nat), (20 : ℚ)).1)) ∧
     ((-30 : Int), (1 : Nat), (20 : ℚ)).2.2 =
      (((OD.mk ply lpd [⟨0, ply, lpd, -30, 20⟩]).passengers.filter
        (fun p => decide (p.sale_day_x ≤ ((-30 : Int), (1 : Nat), (20 : ℚ)).1))).map
          Passenger.price).sum) := by
  have hmem : ((-30 : Int), (1 : Nat), (20 : ℚ)) ∈
      (OD.mk ply lpd [⟨0, ply, lpd, -30, 20⟩]).history := by
    simp [OD.history, sortedDays, cumulate]
  exact ⟨hmem, (history_spec.1 (OD.mk ply lpd [⟨0, ply, lpd, -30, 20⟩])).2.2 _ hmem⟩

theorem dpVal_zero_zero (g : List (List Int)) : dpVal g 0 0 = gridVal g 0 0 := rfl

theorem dpVal_zero_succ (g : List (List Int)) (c : Nat) :
    dpVal g 0 (c + 1) = gridVal g 0 (c + 1) + dpVal g 0 c := rfl

theorem dpVal_succ_zero (g : List (List Int)) (r : Nat) :
    dpVal g (r + 1) 0 = gridVal g (r + 1) 0 + dpVal g r 0 := rfl

theorem dpVal_succ_succ (g : List (List Int)) (r c : Nat) :
    dpVal g (r + 1) (c + 1) =
      gridVal g (r + 1) (c + 1) + max (dpVal g r (c + 1)) (dpVal g (r + 1) c) := rfl

theorem le_dpVal_down (g : List (List Int)) (r c : Nat) :
    gridVal g (r + 1) c + dpVal g r c ≤ dpVal g (r + 1) c := by
  cases c with
  | zero => exact le_of_eq (dpVal_succ_zero g r).symm
  | succ c' =>
      rw [dpVal_succ_succ]
      exact add_le_add_left (le_max_left _ _) _

theorem le_dpVal_right (g : List (List Int)) (r c : Nat) :
    gridVal g r (c + 1) + dpVal g r c ≤ dpVal g r (c + 1) := by
  cases r with
  | zero => exact le_of_eq (dpVal_zero_succ g c).symm
  | succ r' =>
      rw [dpVal_succ_succ]
      exact add_le_add_left (le_max_right _ _) _

theorem pathSum_le_dpVal (g : List (List Int)) :
    ∀ (rest : List (Nat × Nat)) (a : Nat × Nat),
      (a :: rest).Chain' (flip stepRD) → (a :: rest).getLast? = some (0, 0) →
      pathSum g (a :: rest) ≤ dpVal g a.1 a.2 := by
  intro rest
  induction rest with
  | nil =>
      intro a _ hlast
      have ha : a = (0, 0) := by simpa using hlast
      subst ha
      simp [pathSum, dpVal_zero_zero]
  | cons b rest ih =>
      intro a hchain hlast
      have hstep : flip stepRD a b := (List.chain'_cons.mp hchain).1
      have hchain' := (List.chain'_cons.mp hchain).2
      have hlast' : (b :: rest).getLast? = some (0, 0) := by
        rw [← List.getLast?_cons_cons (a := a)]
        exact hlast
      have ihb := ih b hchain' hlast'
      have hsum : pathSum g (a :: b :: rest) =
          gridVal g a.1 a.2 + pathSum g (b :: rest) := by
        simp [pathSum]
      rw [hsum]
      rcases hstep with ⟨h1, h2⟩ | ⟨h1, h2⟩
      · rw [h1, h2]
        calc gridVal g (b.1 + 1) b.2 + pathSum g (b :: rest)
            ≤ gridVal g (b.1 + 1) b.2 + dpVal g b.1 b.2 := add_le_add_left ihb _
          _ ≤ dpVal g (b.1 + 1) b.2 := le_dpVal_down g b.1 b.2
      · rw [h1, h2]
        calc gridVal g b.1 (b.2 + 1) + pathSum g (b :: rest)
            ≤ gridVal g b.1 (b.2 + 1) + dpVal g b.1 b.2 := add_le_add_left ihb _
          _ ≤ dpVal g b.1 (b.2 + 1) := le_dpVal_right g b.1 b.2

theorem getLast?_cons_of_ne_nil {α : Type} (a : α) (l : List α) (h : l ≠ []) :
    (a :: l).getLast? = l.getLast? := by
  cases l with
  | nil => exact absurd rfl h
  | cons b rest => exact List.getLast?_cons_cons

theorem pfWalk_ne_nil (dp : List (List Int)) (row col : Nat) :
    pfWalk dp row col ≠ [] := by
  rw [pfWalk_eq]
  simp

theorem pfWalk_spec (g : List (List Int)) (n m : Nat) (dpT : List (List Int))
    (hdpT : ∀ r c, r < n → c < m → (dpT.getD r []).getD c 0 = dpVal g r c) :
    ∀ (b row col : Nat), row + col ≤ b →
      (pfWalk dpT row col).Chain' (flip stepRD) ∧
      (pfWalk dpT row col).head? = some (row, col) ∧
      (pfWalk dpT row col).getLast? = some (0, 0) ∧
      (pfWalk dpT row col).length = row + col + 1 ∧
      (row < n → col < m → pathSum g (pfWalk dpT row col) = dpVal g row col) := by
  have base : (pfWalk dpT 0 0).Chain' (flip stepRD) ∧
      (pfWalk dpT 0 0).head? = some (0, 0) ∧
      (pfWalk dpT 0 0).getLast? = some (0, 0) ∧
      (pfWalk dpT 0 0).length = 0 + 0 + 1 ∧
      (0 < n → 0 < m → pathSum g (pfWalk dpT 0 0) = dpVal g 0 0) := by
    have h00 : pfWalk dpT 0 0 = [(0, 0)] := by
      rw [pfWalk_eq]
      simp
    rw [h00]
    refine ⟨List.chain'_singleton _, rfl, rfl, rfl, ?_⟩
    intro _ _
    simp [pathSum, dpVal_zero_zero]
  intro b
  induction b with
  | zero =>
      intro row col hb
      have hr : row = 0 := by omega
      have hc : col = 0 := by omega
      subst hr; subst hc
      exact base
  | succ b ih =>
      intro row col hb
      by_cases hcond : 0 < row ∧ (col = 0 ∨
          (dpT.getD (row - 1) []).getD col 0 ≥ (dpT.getD row []).getD (col - 1) 0)
      · obtain ⟨r', rfl⟩ : ∃ r', row = r' + 1 := ⟨row - 1, by omega⟩
        have hstep : pfWalk dpT (r' + 1) col = (r' + 1, col) :: pfWalk dpT r' col := by
          rw [pfWalk_eq, if_pos hcond]
          simp only [Nat.add_sub_cancel]
        obtain ⟨ihc, ihh, ihl, ihlen, ihsum⟩ := ih r' col (by omega)
        refine ⟨?_, ?_, ?_, ?_, ?_⟩
        · rw [hstep, List.chain'_cons']
          refine ⟨?_, ihc⟩
          intro y hy
          rw [ihh] at hy
          cases hy
          exact Or.inl ⟨rfl, rfl⟩
        · rw [hstep]; rfl
        · rw [hstep, getLast?_cons_of_ne_nil _ _ (pfWalk_ne_nil dpT r' col)]
          exact ihl
        · rw [hstep, List.length_cons, ihlen]
          omega
        · intro hr hc
          have hsum : pathSum g (pfWalk dpT (r' + 1) col) =
              gridVal g (r' + 1) col + pathSum g (pfWalk dpT r' col) := by
            rw [hstep]
            simp [pathSum]
          rw [hsum, ihsum (by omega) hc]
          cases col with
          | zero => exact (dpVal_succ_zero g r').symm
          | succ c' =>
              have hge : dpVal g r' (c' + 1) ≥ dpVal g (r' + 1) c' := by
                rcases hcond.2 with h0 | hge
                · cases h0
                · simp only [Nat.add_sub_cancel] at hge
                  rw [hdpT r' (c' + 1) (by omega) hc,
                    hdpT (r' + 1) c' (by omega) (by omega)] at hge
                  exact hge
              rw [dpVal_succ_succ, max_eq_left hge]
      · by_cases hcol : 0 < col
        · obtain ⟨c', rfl⟩ : ∃ c', col = c' + 1 := ⟨col - 1, by omega⟩
          have hstep : pfWalk dpT row (c' + 1) = (row, c' + 1) :: pfWalk dpT row c' := by
            rw [pfWalk_eq, if_neg hcond, if_pos hcol]
            simp only [Nat.add_sub_cancel]
          obtain ⟨ihc, ihh, ihl, ihlen, ihsum⟩ := ih row c' (by omega)
          refine ⟨?_, ?_, ?_, ?_, ?_⟩
          · rw [hstep, List.chain'_cons']
            refine ⟨?_, ihc⟩
            intro y hy
            rw [ihh] at hy
            cases hy
            exact Or.inr ⟨rfl, rfl⟩
          · rw [hstep]; rfl
          · rw [hstep, getLast?_cons_of_ne_nil _ _ (pfWalk_ne_nil dpT row c')]
            exact ihl
          · rw [hstep, List.length_cons, ihlen]
            omega
          · intro hr hc
            have hsum : pathSum g (pfWalk dpT row (c' + 1)) =
                gridVal g row (c' + 1) + pathSum g (pfWalk dpT row c') := by
              rw [hstep]
              simp [pathSum]
            rw [hsum, ihsum hr (by omega)]
            cases row with
            | zero => exact (dpVal_zero_succ g c').symm
            | succ r' =>
                have hlt : dpVal g r' (c' + 1) < dpVal g (r' + 1) c' := by
                  have h2 : ¬ (c' + 1 = 0 ∨
                      (dpT.getD (r' + 1 - 1) []).getD (c' + 1) 0 ≥
                        (dpT.getD (r' + 1) []).getD (c' + 1 - 1) 0) := by
                    intro h
                    exact hcond ⟨by omega, h⟩
                  push_neg at h2
                  have h3 := h2.2
                  simp only [Nat.add_sub_cancel] at h3
                  rw [hdpT r' (c' + 1) (by omega) hc,
                    hdpT (r' + 1) c' hr (by omega)] at h3
                  omega
                rw [dpVal_succ_succ, max_eq_right (le_of_lt hlt)]
        · have hr0 : row = 0 := by
            by_cases h : 0 < row
            · exact absurd ⟨h, Or.inl (by omega)⟩ hcond
            · omega
          have hc0 : col = 0 := by omega
          subst hr0; subst hc0
          exact base

/-- C1: for every non-empty rectangular matrix of non-negative integers with
M rows and N columns, `max_path_finder` returns a pair `(v, path)` where the
returned path is a monotone (right/down) path from `(0, 0)` to
`(M-1, N-1)` visiting no cell twice, has exactly `M+N-1` coordinates, and
sums to `v`; and `v` is the maximum of the sum of matrix values over all
such paths. -/
theorem max_path_finder_spec (grid : List (List Int)) (M N : Nat)
    (hM : grid.length = M) (hN : ∀ row ∈ grid, row.length = N)
    (hM0 : 0 < M) (hN0 : 0 < N)
    (_hnn : ∀ row ∈ grid, ∀ x ∈ row, 0 ≤ x) :
    IsMonoPathTo (M - 1) (N - 1) (max_path_finder grid).2 ∧
    (max_path_finder grid).2.Nodup ∧
    (max_path_finder grid).2.length = M + N - 1 ∧
    pathSum grid (max_path_finder grid).2 = (max_path_finder grid).1 ∧
    (∀ p : List (Nat × Nat), IsMonoPathTo (M - 1) (N - 1) p → p.Nodup →
      pathSum grid p ≤ (max_path_finder grid).1) := by
  set dpT : List (List Int) := (List.range grid.length).map
    (fun r => (List.range (grid.getD 0 []).length).map (fun c => dpVal grid r c))
    with hdpTdef
  have hm' : (grid.getD 0 []).length = N := by
    have h0 : 0 < grid.length := by omega
    rw [List.getD_eq_getElem _ _ h0]
    exact hN _ (List.getElem_mem h0)
  have hdT_len : dpT.length = grid.length := by
    rw [hdpTdef, List.length_map, List.length_range]
  have hdT0_len : (dpT.getD 0 []).length = N := by
    rw [hdpTdef,
      List.getD_eq_getElem _ _ (by rw [List.length_map, List.length_range]; omega),
      List.getElem_map, List.getElem_range, List.length_map, List.length_range, hm']
  have hdpT : ∀ r c, r < M → c < N → (dpT.getD r []).getD c 0 = dpVal grid r c := by
    intro r c hr hc
    have hrow : dpT.getD r [] = (List.range (grid.getD 0 []).length).map
        (fun c' => dpVal grid r c') := by
      rw [hdpTdef,
        List.getD_eq_getElem _ _ (by rw [List.length_map, List.length_range]; omega),
        List.getElem_map, List.getElem_range]
    rw [hrow,
      List.getD_eq_getElem _ _ (by rw [List.length_map, List.length_range, hm']; omega),
      List.getElem_map, List.getElem_range]
  have hv : (max_path_finder grid).1 = dpVal grid (M - 1) (N - 1) := by
    show (dpT.getD (grid.length - 1) []).getD ((grid.getD 0 []).length - 1) 0 = _
    rw [hM, hm']
    exact hdpT (M - 1) (N - 1) (by omega) (by omega)
  have hpath : (max_path_finder grid).2 = (pfWalk dpT (M - 1) (N - 1)).reverse := by
    show (pfWalkAux dpT ((dpT.length - 1) + ((dpT.getD 0 []).length - 1) + 1)
        (dpT.length - 1) ((dpT.getD 0 []).length - 1)).reverse = _
    rw [hdT_len, hM, hdT0_len]
    rfl
  obtain ⟨hch, hhd, hlst, hlen, hsum⟩ :=
    pfWalk_spec grid M N dpT hdpT ((M - 1) + (N - 1)) (M - 1) (N - 1) (le_refl _)
  refine ⟨⟨?_, ?_, ?_⟩, ?_, ?_, ?_, ?_⟩
  · rw [hpath]
    rw [List.chain'_reverse]
    exact hch
  · rw [hpath, List.head?_reverse]
    exact hlst
  · rw [hpath, List.getLast?_reverse]
    exact hhd
  · rw [hpath, List.nodup_reverse]
    have hgt : (List.map (fun rc : Nat × Nat => rc.1 + rc.2)
        (pfWalk dpT (M - 1) (N - 1))).Chain' (· > ·) := by
      rw [List.chain'_map]
      exact hch.imp (fun a b hab => by
        rcases hab with ⟨h1, h2⟩ | ⟨h1, h2⟩ <;> omega)
    exact List.Nodup.of_map _ (List.chain'_iff_pairwise.mp hgt).nodup
  · rw [hpath, List.length_reverse, hlen]
    omega
  · rw [hpath, hv]
    have hrs : pathSum grid ((pfWalk dpT (M - 1) (N - 1)).reverse) =
        pathSum grid (pfWalk dpT (M - 1) (N - 1)) := by
      unfold pathSum
      rw [List.map_reverse, List.sum_reverse]
    rw [hrs]
    exact hsum (by omega) (by omega)
  · intro p hp _
    obtain ⟨hpch, hphd, hplst⟩ := hp
    rw [hv]
    have hrev_ch : p.reverse.Chain' (flip stepRD) := by
      rw [List.chain'_reverse]
      exact hpch
    have hrev_hd : p.reverse.head? = some (M - 1, N - 1) := by
      rw [List.head?_reverse]
      exact hplst
    have hrev_lst : p.reverse.getLast? = some (0, 0) := by
      rw [List.getLast?_reverse]
      exact hphd
    obtain ⟨a, rest, hdecomp⟩ : ∃ a rest, p.reverse = a :: rest := by
      cases hrev : p.reverse with
      | nil => rw [hrev] at hrev_hd; cases hrev_hd
      | cons a rest => exact ⟨a, rest, rfl⟩
    have ha : a = (M - 1, N - 1) := by
      rw [hdecomp] at hrev_hd
      simpa using hrev_hd
    subst ha
    have hsum_rev : pathSum grid p = pathSum grid p.reverse := by
      unfold pathSum
      rw [List.map_reverse, List.sum_reverse]
    rw [hsum_rev, hdecomp]
    exact pathSum_le_dpVal grid rest (M - 1, N - 1) (hdecomp ▸ hrev_ch)
      (hdecomp ▸ hrev_lst)

/-- Witness for C1: at the script's first example matrix (2 rows, 3
columns), the returned path has length 2 + 3 - 1. -/
theorem max_path_finder_spec_witness :
    (max_path_finder [[1, 1, 8], [3, 2, 1]]).2.length = 2 + 3 - 1 :=
  (max_path_finder_spec [[1, 1, 8], [3, 2, 1]] 2 3 rfl (by decide) (by decide)
    (by decide) (by decide)).2.2.1

end Cayzn
